import Mathlib

/-!
Shallow embedding of `src/main.py`, an asynchronous quiz-leaderboard
service backed by a Redis sorted set (`quiz_leaderboard`) and a Redis
hash (`quiz_leaderboard_metadata`).

The sorted set is modelled as an association list from member name to an
integer-valued score.  Redis stores sorted-set scores as IEEE-754
doubles; since every score written by this service is a non-negative
validated `int`, the stored value is the double nearest to that integer,
modelled by `doubleRound` below.  Redis orders sorted-set entries by
(score ascending, member lexicographically ascending); the `ZREV*`
commands used by the service traverse that order in reverse, i.e.
(score descending, member lexicographically descending).
-/

namespace QuizLeaderboard

/-- Leaderboard sorted set, as an association list of
(member, stored integer score).  Every handler below preserves
uniqueness of member names. -/
abbrev Store := List (String × Nat)

/-- Number of binary digits of `m`, computed by repeated halving; the
first argument is fuel bounding the number of halvings (`bitLen` passes
`m` itself, which always suffices). -/
def bitLenAux : Nat → Nat → Nat
  | 0, _ => 0
  | fuel + 1, m => if m = 0 then 0 else bitLenAux fuel (m / 2) + 1

/-- Number of binary digits of `n` (0 for 0). -/
def bitLen (n : Nat) : Nat := bitLenAux n n

/-- Rounding of a non-negative integer score to the nearest IEEE-754
double (53-bit significand, ties to even), as performed by Redis when a
score is stored in a sorted set.  Faithful for scores below the double
overflow threshold (2 to the 1024); no claim here exercises larger
scores. -/
def doubleRound (n : Nat) : Nat :=
  if n < 2 ^ 53 then n
  else
    let e := bitLen n - 53
    let q := n / 2 ^ e
    let r := n % 2 ^ e
    let half := 2 ^ (e - 1)
    let q' := if half < r ∨ (r = half ∧ q % 2 = 1) then q + 1 else q
    q' * 2 ^ e

/-- Redis `ZADD` on the underlying map: replaces the score of the member
if present (sorted-set members are unique), otherwise adds a new entry.
The rounding of the score to a double is applied by `zadd` below. -/
def zaddMap : Store → String → Nat → Store
  | [], m, v => [(m, v)]
  | p :: ps, m, v => if p.1 = m then (m, v) :: ps else p :: zaddMap ps m v

/-- Redis `ZADD quiz_leaderboard` with one member and score: the score is
stored as the nearest double. -/
def zadd (st : Store) (m : String) (v : Nat) : Store :=
  zaddMap st m (doubleRound v)

/-- Redis `ZSCORE`: the stored score of `m`, if present. -/
def zscore : Store → String → Option Nat
  | [], _ => none
  | p :: ps, m => if p.1 = m then some p.2 else zscore ps m

/-- Redis `ZCARD`: number of members. -/
def zcard (st : Store) : Nat := st.length

/-- Lexicographic comparison of member names, character by character, as
Redis compares members of equal score (byte-wise comparison of the UTF-8
encodings, which for valid UTF-8 coincides with codepoint-lexicographic
order). -/
def strLtList : List Char → List Char → Bool
  | [], [] => false
  | [], _ :: _ => true
  | _ :: _, [] => false
  | a :: as, b :: bs =>
    if a < b then true
    else if b < a then false
    else strLtList as bs

/-- Strict lexicographic order on member names. -/
def strLt (x y : String) : Bool := strLtList x.data y.data

/-- Non-strict lexicographic order on member names. -/
def strLe (x y : String) : Bool := !(strLt y x)

/-- Reversed Redis sorted-set order, as traversed by `ZREVRANGE` and
`ZREVRANK`: entry `x` comes before-or-equal entry `y` iff `x` has the
larger score, or the scores are equal and `x` has the lexicographically
larger-or-equal member. -/
def revLe (x y : String × Nat) : Prop :=
  y.2 < x.2 ∨ (y.2 = x.2 ∧ strLe y.1 x.1 = true)

instance : DecidableRel revLe := fun x y => by
  unfold revLe; infer_instance

/-- All entries of the sorted set in the order `ZREVRANGE`/`ZREVRANK`
traverse them: score descending, member descending on ties. -/
def zrevList (st : Store) : List (String × Nat) :=
  List.insertionSort revLe st

/-- Index of the first entry whose member is `m`. -/
def idxOf? (m : String) : List (String × Nat) → Option Nat
  | [] => none
  | p :: ps => if p.1 = m then some 0 else (idxOf? m ps).map (· + 1)

/-- Redis `ZREVRANK`: 0-based position of `m` in the reversed order, if
present. -/
def zrevrank (st : Store) (m : String) : Option Nat :=
  idxOf? m (zrevList st)

/-- Redis `ZREVRANGE key start stop`: negative indexes are resolved from
the end of the set, then clamped; an empty list is returned when the
resolved start exceeds the resolved stop or the set size. -/
def zrevrange (st : Store) (start stop : Int) : List (String × Nat) :=
  let l := zrevList st
  let n : Int := (l.length : Int)
  let s0 := if start < 0 then start + n else start
  let e0 := if stop < 0 then stop + n else stop
  let s1 := if s0 < 0 then 0 else s0
  if s1 > e0 ∨ s1 ≥ n then []
  else
    let e1 := if e0 ≥ n then n - 1 else e0
    (l.drop s1.toNat).take (e1 - s1 + 1).toNat

/-- Request body of `POST /api/score` after pydantic validation
(`username: str`, `score: int` with `ge=0`). -/
structure UserScoreUpdate where
  username : String
  score : Nat
deriving DecidableEq, Repr

/-- Pydantic validation of the `POST /api/score` body: `score` is
declared `int` with `ge=0`, so a negative score is rejected with a 422
validation error before the handler body runs. -/
def validateUserScoreUpdate (username : String) (score : Int) :
    Option UserScoreUpdate :=
  if 0 ≤ score then some ⟨username, score.toNat⟩ else none

/-- Response model `UserRankResponse` (`score` and `rank` optional). -/
structure UserRankResponse where
  username : String
  score : Option Nat
  rank : Option Nat
deriving DecidableEq, Repr

/-- Response model `LeaderboardEntry`. -/
structure LeaderboardEntry where
  username : String
  score : Nat
  rank : Nat
deriving DecidableEq, Repr

/-- Response model `LeaderboardMetadata` (`total_users: int`,
`top_score: Optional[int]`, `top_user: Optional[str]`). -/
structure LeaderboardMetadata where
  total_users : Nat
  top_score : Option Nat
  top_user : Option String
deriving DecidableEq, Repr

/-- Handler of `POST /api/score` (success path): `ZADD`s the score,
refreshes the TTL (which does not affect the map), then reads back
`ZREVRANK` (converted to a 1-based rank) and `ZSCORE`
(`int(score or 0)`).  Returns the new store and the response. -/
def update_score (st : Store) (u : UserScoreUpdate) :
    Store × UserRankResponse :=
  let st' := zadd st u.username u.score
  let rank := (zrevrank st' u.username).map (· + 1)
  let score := (zscore st' u.username).getD 0
  (st', ⟨u.username, some score, rank⟩)

/-- Outcome of a handler whose Redis calls may fail: `ok` carries the
response, `unavailable` is the 503 raised from the `except` branch. -/
inductive Result (α : Type) where
  | ok : α → Result α
  | unavailable : Result α
deriving DecidableEq, Repr

/-- Fault-injected `update_score`.  The `try` block performs four Redis
calls in order: 0 = `zadd`, 1 = `expire`, 2 = `zrevrank`, 3 = `zscore`.
`failAt = some i` (with `i ≤ 3`) means the `i`-th call raises; the
`except` branch then returns 503 Unavailable, and the store keeps the
effects of the calls that completed before the failure (`expire` does
not change the map).  `failAt = none` is the failure-free run. -/
def update_score_faulty (st : Store) (u : UserScoreUpdate)
    (failAt : Option Nat) : Store × Result UserRankResponse :=
  match failAt with
  | some 0 => (st, Result.unavailable)
  | some 1 => (zadd st u.username u.score, Result.unavailable)
  | some 2 => (zadd st u.username u.score, Result.unavailable)
  | some 3 => (zadd st u.username u.score, Result.unavailable)
  | _ =>
    let r := update_score st u
    (r.1, Result.ok r.2)

/-- Full `POST /api/score` endpoint: pydantic validation, then the
handler; `none` stands for the 422 validation error response. -/
def post_score (st : Store) (username : String) (score : Int) :
    Store × Option UserRankResponse :=
  match validateUserScoreUpdate username score with
  | none => (st, none)
  | some u =>
    let r := update_score st u
    (r.1, some r.2)

/-- Handler of `GET /api/rank/username` (success path): `ZREVRANK` and
`ZSCORE`, each copied into the response only when non-`None`. -/
def get_user_rank (st : Store) (username : String) : UserRankResponse :=
  let rank := (zrevrank st username).map (· + 1)
  let score := zscore st username
  ⟨username, score, rank⟩

/-- Handler of `GET /api/leaderboard?top=N` (success path):
`ZREVRANGE quiz_leaderboard 0 top-1 WITHSCORES`, enumerated with 1-based
ranks. -/
def get_leaderboard (st : Store) (top : Int) : List LeaderboardEntry :=
  let res := zrevrange st 0 (top - 1)
  res.enum.map (fun ip => ⟨ip.2.1, ip.2.2, ip.1 + 1⟩)

/-- Metadata hash `quiz_leaderboard_metadata` as stored by `HSET`: all
three field values are strings (`hset` stringifies the ints, and `None`
leading fields are stored as the empty string). -/
structure MetaHash where
  total_users : String
  top_score : String
  top_user : String
deriving DecidableEq, Repr

/-- One tick of the background metadata task (success path): reads
`ZCARD` and `ZREVRANGE 0 0 WITHSCORES`, then `HSET`s the hash, writing
the empty string for the leading fields when the set is empty. -/
def update_metadata_bg_task (st : Store) : MetaHash :=
  let total_users := zcard st
  let top_data := zrevrange st 0 0
  match top_data with
  | [] => ⟨toString total_users, "", ""⟩
  | p :: _ => ⟨toString total_users, toString p.2, p.1⟩

/-- Accumulator loop of `parseNat`. -/
def parseNatList : List Char → Nat → Nat
  | [], acc => acc
  | c :: cs, acc => parseNatList cs (acc * 10 + (c.toNat - 48))

/-- Python `int(...)` applied to the decimal digit strings which
`update_metadata_bg_task` writes into the metadata hash. -/
def parseNat (s : String) : Nat := parseNatList s.data 0

/-- Handler of `GET /api/metadata` (success path): `HGETALL` on the hash
(`none` = the hash key is absent, so `hgetall` returns an empty dict and
every `meta.get` yields its default).  `int(...)` on the stored digit
strings is `parseNat`; the `if meta.get('top_score')` truthiness test is
the non-empty-string test; `top_user` is copied verbatim into the
`Optional[str]` response field. -/
def get_metadata (h : Option MetaHash) : LeaderboardMetadata :=
  match h with
  | none => ⟨0, none, none⟩
  | some m =>
    ⟨parseNat m.total_users,
     if m.top_score ≠ "" then some (parseNat m.top_score) else none,
     some m.top_user⟩

/-- Time (in seconds after startup) of the `n`-th run of a task
decorated with `fastapi_utils.tasks.repeat_every(seconds, wait_first)`,
idealizing the task body as instantaneous: the decorator sleeps one full
period before the first call when `wait_first` is true, and sleeps one
period between consecutive calls. -/
def repeat_every_tick_time (seconds : Nat) (wait_first : Bool) (n : Nat) :
    Nat :=
  (if wait_first then n + 1 else n) * seconds

/-- Schedule of the metadata task, which is registered with
`@repeat_every(seconds=30, wait_first=True)`. -/
def update_metadata_tick_time (n : Nat) : Nat :=
  repeat_every_tick_time 30 true n

/-- Run a sequence of `POST /api/score` handler calls left to right,
threading the store. -/
def runUpserts (st : Store) (us : List UserScoreUpdate) : Store :=
  us.foldl (fun s u => (update_score s u).1) st

/-- Score of the last call for `id` in a sequence of upserts, if any. -/
def lastScoreOf (id : String) : List UserScoreUpdate → Option Nat
  | [] => none
  | u :: us =>
    match lastScoreOf id us with
    | some s => some s
    | none => if u.username = id then some u.score else none

/-- Store after the scenario of the spec: submit alice:150, bob:200,
carol:150 into an empty leaderboard. -/
def scenarioStore : Store :=
  (update_score
    (update_score
      (update_score [] ⟨"alice", 150⟩).1
      ⟨"bob", 200⟩).1
    ⟨"carol", 150⟩).1

/-! Basic lemmas about the embedded Redis operations. -/

theorem doubleRound_eq_of_lt {n : Nat} (h : n < 2 ^ 53) : doubleRound n = n := by
  unfold doubleRound
  rw [if_pos h]

theorem runUpserts_cons (st : Store) (u : UserScoreUpdate)
    (us : List UserScoreUpdate) :
    runUpserts st (u :: us) = runUpserts (update_score st u).1 us := rfl

theorem zscore_zaddMap_self : ∀ (st : Store) (m : String) (v : Nat),
    zscore (zaddMap st m v) m = some v
  | [], m, v => by simp [zaddMap, zscore]
  | p :: ps, m, v => by
    by_cases h : p.1 = m
    · simp [zaddMap, h, zscore]
    · simp only [zaddMap, if_neg h, zscore]
      exact zscore_zaddMap_self ps m v

theorem zscore_zaddMap_other : ∀ (st : Store) (m m' : String) (v : Nat),
    m' ≠ m → zscore (zaddMap st m v) m' = zscore st m'
  | [], m, m', v, h => by
    simp [zaddMap, zscore, Ne.symm h]
  | p :: ps, m, m', v, h => by
    by_cases hp : p.1 = m
    · subst hp
      simp [zaddMap, zscore, Ne.symm h]
    · simp only [zaddMap, if_neg hp, zscore]
      by_cases hp' : p.1 = m'
      · simp [hp']
      · simp [hp', zscore_zaddMap_other ps m m' v h]

theorem zscore_zadd_self (st : Store) (m : String) (v : Nat) :
    zscore (zadd st m v) m = some (doubleRound v) :=
  zscore_zaddMap_self st m (doubleRound v)

theorem zaddMap_idem : ∀ (st : Store) (m : String) (v : Nat),
    zaddMap (zaddMap st m v) m v = zaddMap st m v
  | [], m, v => by simp [zaddMap]
  | p :: ps, m, v => by
    by_cases h : p.1 = m
    · simp [zaddMap, h]
    · simp only [zaddMap, if_neg h]
      rw [zaddMap_idem ps m v]

theorem mem_zaddMap_self : ∀ (st : Store) (m : String) (v : Nat),
    (m, v) ∈ zaddMap st m v
  | [], m, v => by simp [zaddMap]
  | p :: ps, m, v => by
    by_cases h : p.1 = m
    · simp [zaddMap, h]
    · simp only [zaddMap, if_neg h]
      exact List.mem_cons_of_mem p (mem_zaddMap_self ps m v)

theorem zscore_eq_none_of_absent : ∀ (st : Store) (id : String),
    (∀ p ∈ st, p.1 ≠ id) → zscore st id = none
  | [], _, _ => rfl
  | p :: ps, id, h => by
    rw [zscore, if_neg (h p (List.mem_cons_self p ps))]
    exact zscore_eq_none_of_absent ps id fun q hq =>
      h q (List.mem_cons_of_mem p hq)

theorem idxOf?_eq_none_of_absent : ∀ (m : String) (l : List (String × Nat)),
    (∀ p ∈ l, p.1 ≠ m) → idxOf? m l = none
  | _, [], _ => rfl
  | m, p :: ps, h => by
    rw [idxOf?, if_neg (h p (List.mem_cons_self p ps)),
      idxOf?_eq_none_of_absent m ps fun q hq => h q (List.mem_cons_of_mem p hq)]
    rfl

theorem idxOf?_isSome_of_mem {m : String} {l : List (String × Nat)}
    (p : String × Nat) (hp : p ∈ l) (hm : p.1 = m) :
    ∃ i, idxOf? m l = some i := by
  induction l with
  | nil => cases hp
  | cons q t ih =>
    by_cases hq : q.1 = m
    · exact ⟨0, by rw [idxOf?, if_pos hq]⟩
    · rcases List.mem_cons.mp hp with rfl | hp'
      · exact absurd hm hq
      · obtain ⟨i, hi⟩ := ih hp'
        exact ⟨i + 1, by rw [idxOf?, if_neg hq, hi]; rfl⟩

/-! Lemmas about the lexicographic comparison and the reversed order. -/

theorem strLtList_irrefl : ∀ l : List Char, strLtList l l = false
  | [] => rfl
  | a :: as => by
    simp only [strLtList, lt_irrefl a, if_false]
    exact strLtList_irrefl as

theorem strLtList_cons_iff {a b : Char} {as bs : List Char} :
    strLtList (a :: as) (b :: bs) = true ↔
      a < b ∨ (a = b ∧ strLtList as bs = true) := by
  simp only [strLtList]
  by_cases hab : a < b
  · simp [hab]
  · by_cases hba : b < a
    · rw [if_neg hab, if_pos hba]
      constructor
      · intro h; exact absurd h Bool.false_ne_true
      · rintro (h | ⟨h, _⟩)
        · exact absurd h hab
        · exact absurd (h ▸ hba) (lt_irrefl a)
    · have hab' : a = b := le_antisymm (not_lt.mp hba) (not_lt.mp hab)
      simp [hab, hba, hab']

theorem strLtList_trans : ∀ x y z : List Char,
    strLtList x y = true → strLtList y z = true → strLtList x z = true
  | [], [], _, h, _ => by simp [strLtList] at h
  | [], _ :: _, [], _, h => by simp [strLtList] at h
  | [], _ :: _, _ :: _, _, _ => by simp [strLtList]
  | _ :: _, [], _, h, _ => by simp [strLtList] at h
  | _ :: _, _ :: _, [], _, h => by simp [strLtList] at h
  | a :: as, b :: bs, c :: cs, h1, h2 => by
    rw [strLtList_cons_iff] at h1 h2 ⊢
    rcases h1 with h1 | ⟨rfl, h1⟩
    · rcases h2 with h2 | ⟨rfl, _⟩
      · exact Or.inl (h1.trans h2)
      · exact Or.inl h1
    · rcases h2 with h2 | ⟨rfl, h2⟩
      · exact Or.inl h2
      · exact Or.inr ⟨rfl, strLtList_trans as bs cs h1 h2⟩

theorem strLtList_eq_of_not_lt : ∀ x y : List Char,
    strLtList x y = false → strLtList y x = false → x = y
  | [], [], _, _ => rfl
  | [], _ :: _, h, _ => by simp [strLtList] at h
  | _ :: _, [], _, h => by simp [strLtList] at h
  | a :: as, b :: bs, h1, h2 => by
    simp only [strLtList] at h1 h2
    by_cases hab : a < b
    · simp [hab] at h1
    · by_cases hba : b < a
      · simp [hba] at h2
      · have hab' : a = b := le_antisymm (not_lt.mp hba) (not_lt.mp hab)
        simp only [hab, if_false, hba, if_false] at h1 h2
        rw [hab', strLtList_eq_of_not_lt as bs h1 h2]

theorem strLtList_asymm {x y : List Char} (h : strLtList x y = true) :
    strLtList y x = false := by
  by_contra hc
  have hc' : strLtList y x = true := by
    cases h' : strLtList y x
    · exact absurd h' hc
    · rfl
  have := strLtList_trans x y x h hc'
  rw [strLtList_irrefl] at this
  exact Bool.false_ne_true this

theorem strLe_total (x y : String) : strLe x y = true ∨ strLe y x = true := by
  unfold strLe strLt
  cases h : strLtList y.data x.data
  · simp
  · simp [strLtList_asymm h]

theorem strLe_trans {x y z : String} (h1 : strLe x y = true)
    (h2 : strLe y z = true) : strLe x z = true := by
  unfold strLe strLt at *
  simp only [Bool.not_eq_true'] at *
  by_contra hc
  have hc' : strLtList z.data x.data = true := by
    cases h' : strLtList z.data x.data
    · exact absurd h' hc
    · rfl
  cases h3 : strLtList y.data z.data
  · have := strLtList_eq_of_not_lt y.data z.data h3 h2
    rw [← this] at hc'
    rw [hc'] at h1
    exact absurd h1.symm Bool.false_ne_true
  · have := strLtList_trans y.data z.data x.data h3 hc'
    rw [this] at h1
    exact absurd h1.symm Bool.false_ne_true

theorem revLe_total : ∀ x y : String × Nat, revLe x y ∨ revLe y x := by
  intro x y
  rcases Nat.lt_trichotomy x.2 y.2 with h | h | h
  · exact Or.inr (Or.inl h)
  · rcases strLe_total y.1 x.1 with hs | hs
    · exact Or.inl (Or.inr ⟨h.symm, hs⟩)
    · exact Or.inr (Or.inr ⟨h, hs⟩)
  · exact Or.inl (Or.inl h)

theorem revLe_trans : ∀ x y z : String × Nat,
    revLe x y → revLe y z → revLe x z := by
  intro x y z hxy hyz
  rcases hxy with h1 | ⟨h1, h1'⟩ <;> rcases hyz with h2 | ⟨h2, h2'⟩
  · exact Or.inl (h2.trans h1)
  · exact Or.inl (h2 ▸ h1)
  · exact Or.inl (h1 ▸ h2)
  · exact Or.inr ⟨h2.trans h1, strLe_trans h2' h1'⟩

theorem zrevList_perm (st : Store) : List.Perm (zrevList st) st :=
  List.perm_insertionSort revLe st

theorem zrevList_sorted (st : Store) : (zrevList st).Sorted revLe := by
  haveI : IsTotal (String × Nat) revLe := ⟨revLe_total⟩
  haveI : IsTrans (String × Nat) revLe := ⟨fun a b c => revLe_trans a b c⟩
  exact List.sorted_insertionSort revLe st

/-- Core ordering fact: in a list sorted by the reversed Redis order with
unique member names, of two entries with equal scores the one with the
lexicographically larger member has the smaller index. -/
theorem idxOf?_lt_of_sorted :
    ∀ (l : List (String × Nat)) (a b : String) (s ra rb : Nat),
      (l.map Prod.fst).Nodup → l.Sorted revLe → (a, s) ∈ l → (b, s) ∈ l →
      strLt a b = true → idxOf? a l = some ra → idxOf? b l = some rb →
      rb < ra := by
  intro l
  induction l with
  | nil => intro a b s ra rb _ _ ha _ _ _ _; cases ha
  | cons p t ih =>
    intro a b s ra rb hnd hs ha hb hab hra hrb
    have hne : a ≠ b := by
      rintro rfl
      rw [strLt, strLtList_irrefl] at hab
      exact Bool.false_ne_true hab
    rw [List.map_cons, List.nodup_cons] at hnd
    rw [List.sorted_cons] at hs
    by_cases hpb : p.1 = b
    · have hpa : p.1 ≠ a := by rw [hpb]; exact fun h => hne h.symm
      rw [idxOf?, if_pos hpb] at hrb
      rw [idxOf?, if_neg hpa] at hra
      cases hia : idxOf? a t with
      | none => rw [hia] at hra; cases hra
      | some i =>
        rw [hia] at hra
        have hra' : i + 1 = ra := Option.some.inj hra
        have hrb' : (0 : Nat) = rb := Option.some.inj hrb
        omega
    · by_cases hpa : p.1 = a
      · have hpeq : p = (a, s) := by
          rcases List.mem_cons.mp ha with h | h
          · exact h.symm
          · exact absurd (List.mem_map_of_mem Prod.fst h) (hpa ▸ hnd.1)
        have hbt : (b, s) ∈ t := by
          rcases List.mem_cons.mp hb with h | h
          · exact absurd (congrArg Prod.fst h.symm) hpb
          · exact h
        have hrel := hs.1 (b, s) hbt
        rw [hpeq] at hrel
        rcases hrel with h | ⟨-, h⟩
        · exact absurd h (lt_irrefl s)
        · rw [strLe, hab] at h
          cases h
      · have hat : (a, s) ∈ t := by
          rcases List.mem_cons.mp ha with h | h
          · exact absurd (congrArg Prod.fst h.symm) hpa
          · exact h
        have hbt : (b, s) ∈ t := by
          rcases List.mem_cons.mp hb with h | h
          · exact absurd (congrArg Prod.fst h.symm) hpb
          · exact h
        rw [idxOf?, if_neg hpa] at hra
        rw [idxOf?, if_neg hpb] at hrb
        cases hia : idxOf? a t with
        | none => rw [hia] at hra; cases hra
        | some i =>
          cases hib : idxOf? b t with
          | none => rw [hib] at hrb; cases hrb
          | some j =>
            rw [hia] at hra
            rw [hib] at hrb
            have hra' : i + 1 = ra := Option.some.inj hra
            have hrb' : j + 1 = rb := Option.some.inj hrb
            have := ih a b s i j hnd.2 hs.2 hat hbt hab hia hib
            omega

theorem no_call_of_lastScoreOf_none (id : String) :
    ∀ us : List UserScoreUpdate, lastScoreOf id us = none →
      ∀ u ∈ us, u.username ≠ id
  | [], _, u, hu => absurd hu (List.not_mem_nil u)
  | v :: us, h, u, hu => by
    simp only [lastScoreOf] at h
    cases hrest : lastScoreOf id us with
    | some s => rw [hrest] at h; cases h
    | none =>
      rw [hrest] at h
      by_cases hv : v.username = id
      · rw [if_pos hv] at h; cases h
      · rcases List.mem_cons.mp hu with rfl | hu'
        · exact hv
        · exact no_call_of_lastScoreOf_none id us hrest u hu'

theorem zscore_runUpserts_absent :
    ∀ (us : List UserScoreUpdate) (st : Store) (id : String),
      (∀ u ∈ us, u.username ≠ id) →
      zscore (runUpserts st us) id = zscore st id
  | [], _, _, _ => rfl
  | u :: us, st, id, h => by
    rw [runUpserts_cons,
      zscore_runUpserts_absent us _ id
        (fun v hv => h v (List.mem_cons_of_mem u hv))]
    exact zscore_zaddMap_other st u.username id (doubleRound u.score)
      (Ne.symm (h u (List.mem_cons_self u us)))

theorem get_user_rank_score (st : Store) (id : String) :
    (get_user_rank st id).score = zscore st id := rfl

/-! Claim theorems. -/

/-- C1 (counterexample): after submitting alice:150, bob:200, carol:150
the claimed result — equal-score ties ordered identity-ascending, so
TopK(3) = [(bob,200,1), (alice,150,2), (carol,150,3)] and
Rank(alice) = (150, 2) — does not hold on the code. -/
theorem tie_ascending_counterexample :
    ¬ (get_leaderboard scenarioStore 3 =
        [⟨"bob", 200, 1⟩, ⟨"alice", 150, 2⟩, ⟨"carol", 150, 3⟩]
      ∧ get_user_rank scenarioStore "alice" =
        ⟨"alice", some 150, some 2⟩) := by
  decide

/-- C1 (amended): among present identities with equal scores the
lexicographically larger key has the smaller rank (identity-descending
tie-break), and top-K enumeration lists equal-score entries in
identity-descending order; after submitting alice:150, bob:200,
carol:150, TopK(3) is [(bob,200,1), (carol,150,2), (alice,150,3)] and
Rank(alice) is (150, 3). -/
theorem tie_ranked_by_identity_descending :
    (∀ (st : Store) (a b : String) (s ra rb : Nat),
        (st.map Prod.fst).Nodup → (a, s) ∈ st → (b, s) ∈ st →
        strLt a b = true → zrevrank st a = some ra →
        zrevrank st b = some rb → rb < ra)
    ∧ get_leaderboard scenarioStore 3 =
        [⟨"bob", 200, 1⟩, ⟨"carol", 150, 2⟩, ⟨"alice", 150, 3⟩]
    ∧ get_user_rank scenarioStore "alice" = ⟨"alice", some 150, some 3⟩ := by
  refine ⟨?_, by decide, by decide⟩
  intro st a b s ra rb hnd ha hb hab hra hrb
  have hnd' : ((zrevList st).map Prod.fst).Nodup :=
    (((zrevList_perm st).map Prod.fst).nodup_iff).mpr hnd
  exact idxOf?_lt_of_sorted (zrevList st) a b s ra rb hnd'
    (zrevList_sorted st) ((zrevList_perm st).mem_iff.mpr ha)
    ((zrevList_perm st).mem_iff.mpr hb) hab hra hrb

/-- C1 (witness): alice and carol both score 150 in the scenario store,
alice is lexicographically smaller, and carol's 0-based reverse rank 1
is below alice's 2. -/
theorem tie_ranked_by_identity_descending_witness :
    zrevrank scenarioStore "carol" = some 1
    ∧ zrevrank scenarioStore "alice" = some 2
    ∧ (1 : Nat) < 2 :=
  ⟨by decide, by decide,
    tie_ranked_by_identity_descending.1 scenarioStore "alice" "carol" 150 2 1
      (by decide) (by decide) (by decide) (by decide) (by decide) (by decide)⟩

/-- C2 (counterexample): one Upsert of score 2^53 + 1 (not exactly
representable as a double) is read back by Rank as 2^53, not as the
submitted score. -/
theorem large_score_roundtrip_counterexample :
    (get_user_rank (runUpserts [] [⟨"alice", 2 ^ 53 + 1⟩]) "alice").score
      = some (2 ^ 53)
    ∧ (get_user_rank (runUpserts [] [⟨"alice", 2 ^ 53 + 1⟩]) "alice").score
      ≠ some (2 ^ 53 + 1) := by
  constructor
  · decide
  · decide

/-- C2 (amended): for every sequence of Upsert calls whose last call for
a given identity has a score below 2^53 (exactly representable as a
double), a subsequent Rank query for that identity returns exactly the
score of that last call. -/
theorem rank_returns_last_upserted_score :
    ∀ (us : List UserScoreUpdate) (st : Store) (id : String) (s : Nat),
      lastScoreOf id us = some s → s < 2 ^ 53 →
      (get_user_rank (runUpserts st us) id).score = some s
  | [], _, _, _, h, _ => by cases h
  | u :: rest, st, id, s, hlast, hs => by
    rw [runUpserts_cons]
    cases hrest : lastScoreOf id rest with
    | some s' =>
      have heq : s' = s := by
        simp only [lastScoreOf, hrest] at hlast
        exact Option.some.inj hlast
      exact heq ▸
        rank_returns_last_upserted_score rest _ id s' hrest (heq ▸ hs)
    | none =>
      simp only [lastScoreOf, hrest] at hlast
      by_cases hu : u.username = id
      · rw [if_pos hu] at hlast
        have hscore : u.score = s := Option.some.inj hlast
        rw [get_user_rank_score,
          zscore_runUpserts_absent rest _ id
            (no_call_of_lastScoreOf_none id rest hrest)]
        show zscore (zadd st u.username u.score) id = some s
        rw [hu] at *
        rw [zscore_zadd_self, doubleRound_eq_of_lt (hscore ▸ hs), hscore]
      · rw [if_neg hu] at hlast
        cases hlast

/-- C2 (witness): submitting alice:5 then alice:7 makes Rank(alice)
return score 7. -/
theorem rank_returns_last_upserted_score_witness :
    lastScoreOf "alice" [⟨"alice", 5⟩, ⟨"alice", 7⟩] = some 7
    ∧ (get_user_rank (runUpserts [] [⟨"alice", 5⟩, ⟨"alice", 7⟩])
        "alice").score = some 7 :=
  ⟨by decide,
    rank_returns_last_upserted_score [⟨"alice", 5⟩, ⟨"alice", 7⟩] []
      "alice" 7 (by decide) (by decide)⟩

/-- C3 (code evaluation at the failing input): with one participant,
TopK(0) returns the whole leaderboard instead of the claimed empty
sequence, because the handler issues ZREVRANGE 0 -1 and Redis resolves
the -1 as the last element. -/
theorem topk_zero_returns_all_eval :
    get_leaderboard (update_score [] ⟨"alice", 150⟩).1 0 =
      [⟨"alice", 150, 1⟩] := by
  decide

/-- C4 (counterexample): the first scheduled run of the metadata task is
not at startup time 0 — `wait_first=True` makes the decorator sleep one
full period first. -/
theorem first_tick_not_immediate_counterexample :
    update_metadata_tick_time 0 = 30 ∧ update_metadata_tick_time 0 ≠ 0 := by
  constructor
  · rfl
  · decide

/-- C4 (amended): the refresh scheduler's first snapshot computation
fires only after the first full 30-second period (`wait_first=True`),
and thereafter the loop repeats on a fixed 30-second period forever. -/
theorem first_tick_delayed_one_period :
    update_metadata_tick_time 0 = 30
    ∧ ∀ n, update_metadata_tick_time (n + 1) =
        update_metadata_tick_time n + 30 := by
  constructor
  · rfl
  · intro n
    show (n + 1 + 1) * 30 = (n + 1) * 30 + 30
    ring

/-- C5 (counterexample): if the backing store fails on the `expire` call
of an Upsert (after the `zadd` applied), the caller receives Unavailable
but the index is no longer unchanged. -/
theorem upsert_failure_leaves_partial_state_counterexample :
    (update_score_faulty [] ⟨"alice", 5⟩ (some 1)).2 = Result.unavailable
    ∧ (update_score_faulty [] ⟨"alice", 5⟩ (some 1)).1 ≠ [] := by
  constructor
  · rfl
  · decide

/-- C5 (amended): whenever a Redis call of an Upsert fails the caller
receives Unavailable; a failure on the very first call (the `zadd`)
leaves the index unchanged, but a failure on any later call of the same
request leaves the new score already applied — the operation is not
all-or-nothing; in every case a subsequent successful call still
works. -/
theorem upsert_failure_surfaces_unavailable (st : Store)
    (u : UserScoreUpdate) (i : Nat) (hi : i ≤ 3) :
    (update_score_faulty st u (some i)).2 = Result.unavailable
    ∧ (update_score_faulty st u (some 0)).1 = st
    ∧ (1 ≤ i →
        (update_score_faulty st u (some i)).1 = zadd st u.username u.score)
    ∧ (get_user_rank (update_score (update_score_faulty st u (some i)).1 u).1
        u.username).score = some (doubleRound u.score) := by
  interval_cases i
  · exact ⟨rfl, rfl, fun h => absurd h (by omega),
      by simp [update_score, get_user_rank, zadd, zscore_zaddMap_self]⟩
  · exact ⟨rfl, rfl, fun _ => rfl,
      by simp [update_score, get_user_rank, zadd, zscore_zaddMap_self]⟩
  · exact ⟨rfl, rfl, fun _ => rfl,
      by simp [update_score, get_user_rank, zadd, zscore_zaddMap_self]⟩
  · exact ⟨rfl, rfl, fun _ => rfl,
      by simp [update_score, get_user_rank, zadd, zscore_zaddMap_self]⟩

/-- C5 (witness): a failure on the `expire` call of alice:5 against the
empty store surfaces Unavailable. -/
theorem upsert_failure_surfaces_unavailable_witness :
    (1 : Nat) ≤ 3
    ∧ (update_score_faulty [] ⟨"alice", 5⟩ (some 1)).2 =
        Result.unavailable :=
  ⟨by decide,
    (upsert_failure_surfaces_unavailable [] ⟨"alice", 5⟩ 1 (by decide)).1⟩

/-- C6 (code evaluation at the failing input): a scheduler tick on the
empty index followed by the metadata operation yields participant count
0 and absent leading score, but the leading identity is the present
empty string rather than absent. -/
theorem empty_tick_metadata_eval :
    get_metadata (some (update_metadata_bg_task [])) =
      ⟨0, none, some ""⟩ := by
  decide

/-- C7: querying the rank of an identity with no entry in the index (never
submitted, or the whole index expired and thus logically empty) succeeds
and returns a response with absent score and absent rank. -/
theorem rank_of_unknown_identity_absent (st : Store) (id : String)
    (h : ∀ p ∈ st, p.1 ≠ id) :
    get_user_rank st id = ⟨id, none, none⟩ := by
  unfold get_user_rank zrevrank
  rw [idxOf?_eq_none_of_absent id (zrevList st)
      (fun p hp => h p ((zrevList_perm st).mem_iff.mp hp)),
    zscore_eq_none_of_absent st id h]
  rfl

/-- C7 (witness): with only bob on the leaderboard, Rank(alice) has
absent score and rank. -/
theorem rank_of_unknown_identity_absent_witness :
    (∀ p ∈ (update_score [] ⟨"bob", 200⟩).1, p.1 ≠ "alice")
    ∧ get_user_rank (update_score [] ⟨"bob", 200⟩).1 "alice" =
        ⟨"alice", none, none⟩ :=
  ⟨by decide,
    rank_of_unknown_identity_absent (update_score [] ⟨"bob", 200⟩).1
      "alice" (by decide)⟩

/-- C8: an Upsert with a negative score is rejected by validation with
an InvalidScore error (HTTP 422) before the index is touched: the store
is returned unchanged and no handler response is produced. -/
theorem negative_score_rejected_before_index (st : Store)
    (username : String) (s : Int) (h : s < 0) :
    post_score st username s = (st, none) := by
  unfold post_score validateUserScoreUpdate
  rw [if_neg (by omega)]

/-- C8 (witness): submitting alice:-5 against the empty store is
rejected and leaves the store empty. -/
theorem negative_score_rejected_before_index_witness :
    (-5 : Int) < 0 ∧ post_score [] "alice" (-5) = ([], none) :=
  ⟨by decide, negative_score_rejected_before_index [] "alice" (-5) (by decide)⟩

/-- C9: Upsert is idempotent — performing the same Upsert twice in a row
produces exactly the same store (hence the same ranking for every
participant) and the same response as performing it once. -/
theorem upsert_idempotent (st : Store) (u : UserScoreUpdate) :
    update_score (update_score st u).1 u = update_score st u := by
  show update_score (zadd st u.username u.score) u = update_score st u
  simp only [update_score, zadd, zaddMap_idem]

/-- C10 (counterexample): a successful submit of score 2^53 + 1 (not
exactly representable as a double) responds with score 2^53, not the
submitted integer. -/
theorem score_precision_counterexample :
    (update_score [] ⟨"alice", 2 ^ 53 + 1⟩).2.score = some (2 ^ 53)
    ∧ (update_score [] ⟨"alice", 2 ^ 53 + 1⟩).2.score ≠
        some (2 ^ 53 + 1) := by
  constructor
  · decide
  · decide

/-- C10 (amended): every successful submit responds with a present
1-based rank, and whenever the submitted score is below 2^53 (exactly
representable as a double) the returned score equals it exactly. -/
theorem submit_response_rank_present_score_exact (st : Store)
    (u : UserScoreUpdate) :
    (∃ r, (update_score st u).2.rank = some r)
    ∧ (u.score < 2 ^ 53 →
        (update_score st u).2.score = some u.score) := by
  constructor
  · have hmem : (u.username, doubleRound u.score) ∈
        zrevList (zadd st u.username u.score) :=
      (zrevList_perm _).mem_iff.mpr
        (mem_zaddMap_self st u.username (doubleRound u.score))
    obtain ⟨i, hi⟩ := idxOf?_isSome_of_mem _ hmem rfl
    refine ⟨i + 1, ?_⟩
    show (zrevrank (zadd st u.username u.score) u.username).map (· + 1) =
      some (i + 1)
    rw [zrevrank, hi]
    rfl
  · intro h
    show some ((zscore (zadd st u.username u.score) u.username).getD 0) =
      some u.score
    rw [zscore_zadd_self, doubleRound_eq_of_lt h]
    rfl

/-- C10 (witness): submitting alice:7 to the empty store responds with
rank 1 and score exactly 7. -/
theorem submit_response_rank_present_score_exact_witness :
    (7 : Nat) < 2 ^ 53
    ∧ (update_score [] ⟨"alice", 7⟩).2.score = some 7 :=
  ⟨by decide,
    (submit_response_rank_present_score_exact [] ⟨"alice", 7⟩).2 (by decide)⟩

end QuizLeaderboard
